import Mathlib

/-!
Shallow embedding of the Resource-Gated Loading Sequencer (`LoadingManager`,
src/script.js lines 806-969).

The sequencer is single-threaded and event-driven: all state mutation happens
inside callbacks (resource settlement listeners, the 500 ms grace timer, the
5000 ms fallback timer) dispatched by the browser event loop, which never
preempts a running callback.  We model an execution as a list of timestamped
events processed in order; well-formedness (`WF`) captures exactly the
constraints the platform guarantees: event times are dispatched in
non-decreasing order, each resource settles at most once (a load listener
fires at most once per resource, success or failure collapsed to one signal),
the fallback timer fires exactly at start + 5000 and only when it was armed
(`total >= 1`), and a grace-timer event can only fire if `onResourceLoaded`
actually scheduled it, at the scheduled instant.

DOM manipulation (progress-bar width, loading-screen fade) is presentation
consumed by external collaborators; the sequencer-visible effects are recorded
as logs: `progressLog` records the percentages handed to the Progress Sink
(`updateProgress`), and `hookLog` records each invocation of the Ready Hook
(`onLoadingComplete`) together with the path that triggered it.  The
`loadingScreen` fade branch of `completeLoading` depends on a DOM element whose
defining HTML is not part of the source tree; per the spec, the ready
transition invokes the Ready Hook exactly once, so the hook invocation is
recorded at the instant of the transition.
-/

namespace MeisterLoad

/-- Resource Descriptor (spec section 3): one trackable page asset, as pushed by
`collectResources` (script.js 824-854).  A stylesheet records whether
`link.sheet` is already available at attach time. -/
inductive Resource where
  | image (url : String)
  | stylesheet (sheetPresent : Bool)
  | fonts
deriving DecidableEq

/-- `collectResources` (script.js 824-854): images with a `src` attribute first,
then stylesheet links, then one synthetic fonts descriptor when the platform
exposes `document.fonts`.  The fonts settlement callback
(`document.fonts.ready.then(...)`) is registered exactly when the fonts
descriptor is pushed. -/
def collectResources (imgSrcs : List String) (sheetFlags : List Bool)
    (hasFonts : Bool) : List Resource :=
  imgSrcs.map Resource.image ++ sheetFlags.map Resource.stylesheet ++
    (if hasFonts then [Resource.fonts] else [])

/-- The discovery input: the page content scanned by `collectResources`. -/
structure Config where
  imgSrcs : List String
  sheetFlags : List Bool
  hasFonts : Bool
deriving DecidableEq

def Config.resources (c : Config) : List Resource :=
  collectResources c.imgSrcs c.sheetFlags c.hasFonts

/-- `this.totalCount = this.resources.length` (script.js 853). -/
def Config.total (c : Config) : Nat := c.resources.length

/-- `(this.loadedCount / this.totalCount) * 100` (script.js 907), JS number
division modelled over the rationals. -/
def progressOf (loaded total : Nat) : ℚ := ((loaded : ℚ) / (total : ℚ)) * 100

/-- The milestone message corpus of `updateProgress` (script.js 922-927). -/
def messages : List String :=
  ["Loading experience...", "Preparing models...", "Initializing systems...",
   "Almost ready..."]

/-- `Math.floor((progress / 100) * (messages.length - 1))` (script.js 928). -/
def messageIndex (p : ℚ) : ℤ :=
  Int.floor (p / 100 * ((messages.length : ℚ) - 1))

/-- `messages[messageIndex] || 'Loading...'` (script.js 929): an out-of-range
index yields `undefined` and the fallback text; every message in the corpus is
a nonempty (truthy) string, so `||` is exactly the undefined check. -/
def statusMessage (p : ℚ) : String :=
  if h : 0 ≤ messageIndex p ∧ (messageIndex p).toNat < messages.length then
    messages.get ⟨(messageIndex p).toNat, h.2⟩
  else "Loading..."

/-- Which call site invoked `completeLoading`: the `total == 0` short-circuit
in `startLoading` (script.js 857-860), the 500 ms grace timer scheduled by
`onResourceLoaded` (script.js 912), or the 5000 ms fallback timer armed by
`startLoading` (script.js 867-871). -/
inductive Src where
  | startImmediate
  | graceTimer
  | fallbackTimer
deriving DecidableEq

/-- Sequencer State (spec section 3) plus the observation logs and the timer
bookkeeping needed to constrain grace-timer events.  `gracePending` lists the
absolute fire times of grace timers scheduled so far; `graceDone` counts how
many have fired. -/
structure LMState where
  loadedCount : Nat
  totalCount : Nat
  isComplete : Bool
  progressLog : List ℚ
  hookLog : List (Nat × Src)
  gracePending : List Nat
  graceDone : Nat
deriving DecidableEq

/-- `completeLoading` (script.js 933-946): idempotence guard on `isComplete`,
then the one-way transition recording the Ready Hook invocation. -/
def completeLoading (src : Src) (t : Nat) (s : LMState) : LMState :=
  if s.isComplete then s
  else { s with isComplete := true, hookLog := s.hookLog ++ [(t, src)] }

/-- `updateProgress` (script.js 916-931): the sequencer-visible effect is the
percentage handed to the Progress Sink; bar width and status text are derived
presentation (see `messageIndex` / `statusMessage`). -/
def updateProgress (p : ℚ) (s : LMState) : LMState :=
  { s with progressLog := s.progressLog ++ [p] }

/-- `onResourceLoaded` (script.js 905-914): increment, report progress, and when
`loadedCount >= totalCount` schedule `completeLoading` 500 ms later. -/
def onResourceLoaded (t : Nat) (s : LMState) : LMState :=
  let s1 : LMState := { s with loadedCount := s.loadedCount + 1 }
  let s2 := updateProgress (progressOf s1.loadedCount s1.totalCount) s1
  if s2.totalCount ≤ s2.loadedCount then
    { s2 with gracePending := s2.gracePending ++ [t + 500] }
  else s2

/-- A settlement outcome: the success or the failure event of a resource load. -/
inductive Outcome where
  | success
  | failure
deriving DecidableEq

/-- Listener dispatch per resource kind (script.js 888-903 and 846-849):
`img.onload` and `img.onerror` are both `() => this.onResourceLoaded()`; a
stylesheet link gets the same pair; the fonts-ready promise resolution also
calls `onResourceLoaded`.  Every road leads to the same settlement
notification. -/
def listenerFire (r : Resource) (oc : Outcome) (t : Nat) (s : LMState) : LMState :=
  match r, oc with
  | Resource.image _, Outcome.success => onResourceLoaded t s
  | Resource.image _, Outcome.failure => onResourceLoaded t s
  | Resource.stylesheet _, Outcome.success => onResourceLoaded t s
  | Resource.stylesheet _, Outcome.failure => onResourceLoaded t s
  | Resource.fonts, _ => onResourceLoaded t s

/-- The listener pair attached to an asynchronously settling resource. -/
structure Listeners where
  onLoad : Nat → LMState → LMState
  onError : Nat → LMState → LMState

/-- `loadStylesheet` (script.js 895-903): when `link.sheet` is already
available the resource counts as settled immediately (synchronous
`onResourceLoaded` call, no listeners attached); otherwise both `onload` and
`onerror` are attached and either counts as settlement. -/
def loadStylesheet (sheetPresent : Bool) (t : Nat) (s : LMState) :
    LMState × Option Listeners :=
  if sheetPresent then (onResourceLoaded t s, none)
  else (s, some ⟨fun u s0 => onResourceLoaded u s0, fun u s0 => onResourceLoaded u s0⟩)

/-- `loadImage` (script.js 888-893): a fresh image object with both `onload`
and `onerror` wired to the settlement notification. -/
def loadImage : Listeners :=
  ⟨fun u s0 => onResourceLoaded u s0, fun u s0 => onResourceLoaded u s0⟩

/-- The fallback-timer callback (script.js 867-871). -/
def fallbackFire (t : Nat) (s : LMState) : LMState :=
  if s.isComplete then s else completeLoading Src.fallbackTimer t s

/-- The grace-timer callback (script.js 912): `() => this.completeLoading()`;
`graceDone` bookkeeping records that this scheduled timer has fired. -/
def graceFire (t : Nat) (s : LMState) : LMState :=
  completeLoading Src.graceTimer t { s with graceDone := s.graceDone + 1 }

/-- The state after the constructor plus `init()` (script.js 807-822):
`collectResources` fixes `totalCount`; `startLoading` (script.js 856-872)
short-circuits through `completeLoading` at time 0 when `totalCount == 0`
(no listeners attached, no fallback timer armed).  The JS `isComplete` field
is initially undefined, i.e. falsy. -/
def initState (c : Config) : LMState :=
  let s0 : LMState :=
    { loadedCount := 0, totalCount := c.total, isComplete := false,
      progressLog := [], hookLog := [], gracePending := [], graceDone := 0 }
  if c.total = 0 then completeLoading Src.startImmediate 0 s0 else s0

/-- An event dispatched by the platform event loop. -/
inductive Ev where
  | settle (i : Nat) (oc : Outcome)
  | grace
  | fb
deriving DecidableEq

/-- Dispatch one event against the sequencer state. -/
def step (c : Config) (s : LMState) (t : Nat) (e : Ev) : LMState :=
  match e with
  | Ev.settle i oc =>
      match c.resources[i]? with
      | some r => listenerFire r oc t s
      | none => s
  | Ev.grace => graceFire t s
  | Ev.fb => fallbackFire t s

/-- Process a timestamped event trace. -/
def runFrom (c : Config) (s : LMState) : List (Nat × Ev) → LMState
  | [] => s
  | (t, e) :: rest => runFrom c (step c s t e) rest

/-- A full execution from page startup. -/
def run (c : Config) (tr : List (Nat × Ev)) : LMState :=
  runFrom c (initState c) tr

/-- The indices of the settlement events of a trace, in dispatch order. -/
def settleIdxs (tr : List (Nat × Ev)) : List Nat :=
  tr.filterMap fun te =>
    match te.2 with
    | Ev.settle i _ => some i
    | _ => none

/-- The times of the settlement events of a trace, in dispatch order. -/
def settleTimes (tr : List (Nat × Ev)) : List Nat :=
  tr.filterMap fun te =>
    match te.2 with
    | Ev.settle _ _ => some te.1
    | _ => none

/-- Number of settlement events of a trace. -/
def settleCount (tr : List (Nat × Ev)) : Nat := (settleIdxs tr).length

/-- The time of the last settlement of a trace (0 when there is none). -/
def maxSettleTime (tr : List (Nat × Ev)) : Nat :=
  (settleTimes tr).foldr max 0

/-- Checks that every grace-timer event of the trace fires a timer that
`onResourceLoaded` actually scheduled, at its scheduled absolute time. -/
def graceOKb (c : Config) : LMState → List (Nat × Ev) → Bool
  | _, [] => true
  | s, (t, e) :: rest =>
      (match e with
       | Ev.grace => s.gracePending[s.graceDone]? == some t
       | _ => true) && graceOKb c (step c s t e) rest

/-- Per-event scheduling constraint: a settlement listener exists only for a
discovered resource (listeners are attached by `startLoading`, and the fonts
callback is registered together with its pushed descriptor, so settlement
requires `i < total`); the fallback timer is armed only when `total >= 1`
(script.js 857-860) and fires exactly 5000 ms after `startLoading`. -/
def evOK (c : Config) (te : Nat × Ev) : Bool :=
  match te.2 with
  | Ev.settle i _ => decide (i < c.total)
  | Ev.fb => decide (te.1 = 5000 ∧ 1 ≤ c.total)
  | Ev.grace => true

/-- Well-formedness of an event trace: exactly the scheduling guarantees of the
single-threaded browser event loop, with `startLoading` at time 0.
`settleOnce` is the platform contract that each resource settles at most once
(load and error collapse to one signal, spec section 9). -/
structure WF (c : Config) (tr : List (Nat × Ev)) : Prop where
  sorted : List.Pairwise (fun a b => a ≤ b) (tr.map Prod.fst)
  evsOK : tr.all (evOK c) = true
  settleOnce : (settleIdxs tr).Nodup
  fbOnce : tr.countP (fun te => te.2 == Ev.fb) ≤ 1
  graceOK : graceOKb c (initState c) tr = true

/-- A settlement event only exists for a discovered resource index. -/
theorem WF.settle_lt {c : Config} {tr : List (Nat × Ev)} (h : WF c tr)
    {t i : Nat} {oc : Outcome} (hm : (t, Ev.settle i oc) ∈ tr) : i < c.total := by
  have := List.all_eq_true.mp h.evsOK _ hm
  simpa [evOK] using this

/-- A fallback-timer event fires exactly at 5000 and only when armed. -/
theorem WF.fb_time {c : Config} {tr : List (Nat × Ev)} (h : WF c tr)
    {t : Nat} (hm : (t, Ev.fb) ∈ tr) : t = 5000 ∧ 1 ≤ c.total := by
  have := List.all_eq_true.mp h.evsOK _ hm
  simpa [evOK] using this

/-! ### Small-step component lemmas -/

theorem listenerFire_eq (r : Resource) (oc : Outcome) (t : Nat) (s : LMState) :
    listenerFire r oc t s = onResourceLoaded t s := by
  cases r <;> cases oc <;> rfl

theorem step_settle {c : Config} {s : LMState} {t i : Nat} {oc : Outcome}
    (h : i < c.total) : step c s t (Ev.settle i oc) = onResourceLoaded t s := by
  have hr : c.resources[i]? = some (c.resources.get ⟨i, h⟩) :=
    List.getElem?_eq_getElem h
  simp [step, hr, listenerFire_eq]

@[simp]
theorem onResourceLoaded_loadedCount (t : Nat) (s : LMState) :
    (onResourceLoaded t s).loadedCount = s.loadedCount + 1 := by
  simp only [onResourceLoaded, updateProgress]
  split <;> rfl

@[simp]
theorem onResourceLoaded_totalCount (t : Nat) (s : LMState) :
    (onResourceLoaded t s).totalCount = s.totalCount := by
  simp only [onResourceLoaded, updateProgress]
  split <;> rfl

@[simp]
theorem onResourceLoaded_isComplete (t : Nat) (s : LMState) :
    (onResourceLoaded t s).isComplete = s.isComplete := by
  simp only [onResourceLoaded, updateProgress]
  split <;> rfl

@[simp]
theorem onResourceLoaded_hookLog (t : Nat) (s : LMState) :
    (onResourceLoaded t s).hookLog = s.hookLog := by
  simp only [onResourceLoaded, updateProgress]
  split <;> rfl

@[simp]
theorem onResourceLoaded_graceDone (t : Nat) (s : LMState) :
    (onResourceLoaded t s).graceDone = s.graceDone := by
  simp only [onResourceLoaded, updateProgress]
  split <;> rfl

@[simp]
theorem onResourceLoaded_progressLog (t : Nat) (s : LMState) :
    (onResourceLoaded t s).progressLog =
      s.progressLog ++ [progressOf (s.loadedCount + 1) s.totalCount] := by
  simp only [onResourceLoaded, updateProgress]
  split <;> rfl

theorem onResourceLoaded_gracePending (t : Nat) (s : LMState) :
    (onResourceLoaded t s).gracePending =
      if s.totalCount ≤ s.loadedCount + 1 then s.gracePending ++ [t + 500]
      else s.gracePending := by
  simp only [onResourceLoaded, updateProgress]
  split <;> rfl

@[simp]
theorem completeLoading_loadedCount (src : Src) (t : Nat) (s : LMState) :
    (completeLoading src t s).loadedCount = s.loadedCount := by
  unfold completeLoading
  split <;> rfl

@[simp]
theorem completeLoading_totalCount (src : Src) (t : Nat) (s : LMState) :
    (completeLoading src t s).totalCount = s.totalCount := by
  unfold completeLoading
  split <;> rfl

@[simp]
theorem completeLoading_progressLog (src : Src) (t : Nat) (s : LMState) :
    (completeLoading src t s).progressLog = s.progressLog := by
  unfold completeLoading
  split <;> rfl

@[simp]
theorem completeLoading_gracePending (src : Src) (t : Nat) (s : LMState) :
    (completeLoading src t s).gracePending = s.gracePending := by
  unfold completeLoading
  split <;> rfl

@[simp]
theorem completeLoading_graceDone (src : Src) (t : Nat) (s : LMState) :
    (completeLoading src t s).graceDone = s.graceDone := by
  unfold completeLoading
  split <;> rfl

@[simp]
theorem completeLoading_isComplete (src : Src) (t : Nat) (s : LMState) :
    (completeLoading src t s).isComplete = true := by
  unfold completeLoading
  split <;> simp_all

theorem completeLoading_of_complete {s : LMState} (h : s.isComplete = true)
    (src : Src) (t : Nat) : completeLoading src t s = s := by
  simp [completeLoading, h]

theorem completeLoading_hookLog_of_not {s : LMState} (h : s.isComplete = false)
    (src : Src) (t : Nat) :
    (completeLoading src t s).hookLog = s.hookLog ++ [(t, src)] := by
  simp [completeLoading, h]

theorem fallbackFire_eq (t : Nat) (s : LMState) :
    fallbackFire t s = completeLoading Src.fallbackTimer t s := by
  unfold fallbackFire
  split
  · rw [completeLoading_of_complete]
    assumption
  · rfl

/-! ### Step and run preservation lemmas -/

theorem step_settle_hookLog (c : Config) (s : LMState) (t i : Nat) (oc : Outcome) :
    (step c s t (Ev.settle i oc)).hookLog = s.hookLog := by
  simp only [step]
  cases hr : c.resources[i]? with
  | none => rfl
  | some r => simp [listenerFire_eq]

theorem step_settle_isComplete (c : Config) (s : LMState) (t i : Nat) (oc : Outcome) :
    (step c s t (Ev.settle i oc)).isComplete = s.isComplete := by
  simp only [step]
  cases hr : c.resources[i]? with
  | none => rfl
  | some r => simp [listenerFire_eq]

theorem step_settle_none {c : Config} {s : LMState} {t i : Nat} {oc : Outcome}
    (hr : c.resources[i]? = none) : step c s t (Ev.settle i oc) = s := by
  simp [step, hr]

theorem step_settle_some {c : Config} {s : LMState} {t i : Nat} {oc : Outcome}
    {r : Resource} (hr : c.resources[i]? = some r) :
    step c s t (Ev.settle i oc) = onResourceLoaded t s := by
  simp [step, hr, listenerFire_eq]

theorem totalCount_step (c : Config) (s : LMState) (t : Nat) (e : Ev) :
    (step c s t e).totalCount = s.totalCount := by
  cases e with
  | settle i oc =>
      simp only [step]
      cases hr : c.resources[i]? with
      | none => rfl
      | some r => simp [listenerFire_eq]
  | grace => simp [step, graceFire]
  | fb => simp [step, fallbackFire_eq]

theorem totalCount_runFrom (c : Config) (s : LMState) (tr : List (Nat × Ev)) :
    (runFrom c s tr).totalCount = s.totalCount := by
  induction tr generalizing s with
  | nil => rfl
  | cons te rest ih =>
      rcases te with ⟨t, e⟩
      rw [runFrom, ih, totalCount_step]

theorem runFrom_append (c : Config) (s : LMState) (l₁ l₂ : List (Nat × Ev)) :
    runFrom c s (l₁ ++ l₂) = runFrom c (runFrom c s l₁) l₂ := by
  induction l₁ generalizing s with
  | nil => rfl
  | cons te rest ih =>
      rcases te with ⟨t, e⟩
      rw [List.cons_append, runFrom, runFrom, ih]

theorem isComplete_step_of_complete {c : Config} {s : LMState} {t : Nat} {e : Ev}
    (h : s.isComplete = true) :
    (step c s t e).isComplete = true ∧ (step c s t e).hookLog = s.hookLog := by
  cases e with
  | settle i oc =>
      simp only [step]
      cases hr : c.resources[i]? with
      | none => exact ⟨h, rfl⟩
      | some r => simp [listenerFire_eq, h]
  | grace =>
      have hc : ({ s with graceDone := s.graceDone + 1 } : LMState).isComplete = true := h
      constructor
      · simp [step, graceFire]
      · simp [step, graceFire, completeLoading_of_complete hc]
  | fb => simp [step, fallbackFire, h]

/-- Once `isComplete` is set, every later callback leaves it set and never
invokes the Ready Hook again. -/
theorem complete_stable {c : Config} {s : LMState} {tr : List (Nat × Ev)}
    (h : s.isComplete = true) :
    (runFrom c s tr).isComplete = true ∧ (runFrom c s tr).hookLog = s.hookLog := by
  induction tr generalizing s with
  | nil => exact ⟨h, rfl⟩
  | cons te rest ih =>
      rcases te with ⟨t, e⟩
      rcases isComplete_step_of_complete (c := c) (t := t) (e := e) h with ⟨h1, h2⟩
      rw [runFrom]
      rcases ih h1 with ⟨h3, h4⟩
      exact ⟨h3, h4.trans h2⟩

/-! ### Trace bookkeeping -/

@[simp]
theorem settleIdxs_nil : settleIdxs [] = [] := rfl

@[simp]
theorem settleIdxs_cons_settle (t i : Nat) (oc : Outcome) (tr : List (Nat × Ev)) :
    settleIdxs ((t, Ev.settle i oc) :: tr) = i :: settleIdxs tr := rfl

@[simp]
theorem settleIdxs_cons_grace (t : Nat) (tr : List (Nat × Ev)) :
    settleIdxs ((t, Ev.grace) :: tr) = settleIdxs tr := rfl

@[simp]
theorem settleIdxs_cons_fb (t : Nat) (tr : List (Nat × Ev)) :
    settleIdxs ((t, Ev.fb) :: tr) = settleIdxs tr := rfl

@[simp]
theorem settleTimes_nil : settleTimes [] = [] := rfl

@[simp]
theorem settleTimes_cons_settle (t i : Nat) (oc : Outcome) (tr : List (Nat × Ev)) :
    settleTimes ((t, Ev.settle i oc) :: tr) = t :: settleTimes tr := rfl

@[simp]
theorem settleTimes_cons_grace (t : Nat) (tr : List (Nat × Ev)) :
    settleTimes ((t, Ev.grace) :: tr) = settleTimes tr := rfl

@[simp]
theorem settleTimes_cons_fb (t : Nat) (tr : List (Nat × Ev)) :
    settleTimes ((t, Ev.fb) :: tr) = settleTimes tr := rfl

@[simp]
theorem settleCount_nil : settleCount [] = 0 := rfl

@[simp]
theorem settleCount_cons_settle (t i : Nat) (oc : Outcome) (tr : List (Nat × Ev)) :
    settleCount ((t, Ev.settle i oc) :: tr) = settleCount tr + 1 := by
  simp [settleCount, Nat.add_comm]

@[simp]
theorem settleCount_cons_grace (t : Nat) (tr : List (Nat × Ev)) :
    settleCount ((t, Ev.grace) :: tr) = settleCount tr := rfl

@[simp]
theorem settleCount_cons_fb (t : Nat) (tr : List (Nat × Ev)) :
    settleCount ((t, Ev.fb) :: tr) = settleCount tr := rfl

theorem settleIdxs_append (l₁ l₂ : List (Nat × Ev)) :
    settleIdxs (l₁ ++ l₂) = settleIdxs l₁ ++ settleIdxs l₂ :=
  List.filterMap_append _ _ _

theorem settleCount_append (l₁ l₂ : List (Nat × Ev)) :
    settleCount (l₁ ++ l₂) = settleCount l₁ + settleCount l₂ := by
  simp [settleCount, settleIdxs_append]

theorem mem_settleIdxs {tr : List (Nat × Ev)} {i : Nat} (h : i ∈ settleIdxs tr) :
    ∃ t oc, (t, Ev.settle i oc) ∈ tr := by
  induction tr with
  | nil => simp [settleIdxs] at h
  | cons te rest ih =>
      rcases te with ⟨t, e⟩
      cases e with
      | settle j oc =>
          rw [settleIdxs_cons_settle, List.mem_cons] at h
          rcases h with h | h
          · exact ⟨t, oc, by simp [h]⟩
          · rcases ih h with ⟨t2, oc2, hm⟩
            exact ⟨t2, oc2, List.mem_cons_of_mem _ hm⟩
      | grace =>
          rcases ih (by simpa using h) with ⟨t2, oc2, hm⟩
          exact ⟨t2, oc2, List.mem_cons_of_mem _ hm⟩
      | fb =>
          rcases ih (by simpa using h) with ⟨t2, oc2, hm⟩
          exact ⟨t2, oc2, List.mem_cons_of_mem _ hm⟩

theorem exists_settle_of_count_pos {tr : List (Nat × Ev)} (h : 1 ≤ settleCount tr) :
    ∃ t i oc, (t, Ev.settle i oc) ∈ tr := by
  rcases tr with _ | ⟨⟨t, e⟩, rest⟩
  · simp [settleCount, settleIdxs] at h
  · cases e with
    | settle i oc => exact ⟨t, i, oc, List.mem_cons_self _ _⟩
    | grace =>
        rcases exists_settle_of_count_pos (show 1 ≤ settleCount rest by simpa using h) with ⟨t2, i, oc, hm⟩
        exact ⟨t2, i, oc, List.mem_cons_of_mem _ hm⟩
    | fb =>
        rcases exists_settle_of_count_pos (show 1 ≤ settleCount rest by simpa using h) with ⟨t2, i, oc, hm⟩
        exact ⟨t2, i, oc, List.mem_cons_of_mem _ hm⟩

/-- There are at most `total` settlement events: each resource settles at most
once and only discovered resources have listeners. -/
theorem settleCount_le_total {c : Config} {tr : List (Nat × Ev)} (h : WF c tr) :
    settleCount tr ≤ c.total := by
  have hsub : (settleIdxs tr).toFinset ⊆ Finset.range c.total := by
    intro i hi
    rw [List.mem_toFinset] at hi
    rcases mem_settleIdxs hi with ⟨t, oc, hm⟩
    rw [Finset.mem_range]
    exact h.settle_lt hm
  have hcard := Finset.card_le_card hsub
  rw [Finset.card_range, List.toFinset_card_of_nodup h.settleOnce] at hcard
  exact hcard

/-! ### `graceOKb` decomposition -/

theorem graceOKb_cons {c : Config} {s : LMState} {t : Nat} {e : Ev}
    {rest : List (Nat × Ev)} (h : graceOKb c s ((t, e) :: rest) = true) :
    (e = Ev.grace → s.gracePending[s.graceDone]? = some t) ∧
      graceOKb c (step c s t e) rest = true := by
  cases e with
  | settle i oc =>
      simp only [graceOKb, Bool.and_eq_true] at h
      exact ⟨fun he => Ev.noConfusion he, h.2⟩
  | grace =>
      simp only [graceOKb, Bool.and_eq_true, beq_iff_eq] at h
      exact ⟨fun _ => h.1, h.2⟩
  | fb =>
      simp only [graceOKb, Bool.and_eq_true] at h
      exact ⟨fun he => Ev.noConfusion he, h.2⟩

theorem graceOKb_append {c : Config} (s : LMState) (l₁ l₂ : List (Nat × Ev)) :
    graceOKb c s (l₁ ++ l₂) =
      (graceOKb c s l₁ && graceOKb c (runFrom c s l₁) l₂) := by
  induction l₁ generalizing s with
  | nil => simp [graceOKb, runFrom]
  | cons te rest ih =>
      rcases te with ⟨t, e⟩
      rw [List.cons_append]
      cases e <;> simp [graceOKb, runFrom, ih, Bool.and_assoc]

/-! ### `loadedCount` tracks the number of settlements -/

theorem loadedCount_runFrom {c : Config} {tr : List (Nat × Ev)}
    (hb : ∀ te ∈ tr, ∀ i oc, te.2 = Ev.settle i oc → i < c.total) (s : LMState) :
    (runFrom c s tr).loadedCount = s.loadedCount + settleCount tr := by
  induction tr generalizing s with
  | nil => rfl
  | cons te rest ih =>
      rcases te with ⟨t, e⟩
      have hbr : ∀ te ∈ rest, ∀ i oc, te.2 = Ev.settle i oc → i < c.total :=
        fun te hm => hb te (List.mem_cons_of_mem _ hm)
      cases e with
      | settle i oc =>
          have hi : i < c.total := hb _ (List.mem_cons_self _ _) i oc rfl
          rw [runFrom, step_settle hi, ih hbr, onResourceLoaded_loadedCount,
            settleCount_cons_settle]
          omega
      | grace =>
          rw [runFrom, ih hbr, settleCount_cons_grace]
          simp [step, graceFire]
      | fb =>
          rw [runFrom, ih hbr, settleCount_cons_fb]
          simp [step, fallbackFire_eq]

/-- Bridge: the `evOK` form of the settlement bound. -/
theorem settle_bound_of_all {c : Config} {tr : List (Nat × Ev)}
    (h : tr.all (evOK c) = true) :
    ∀ te ∈ tr, ∀ i oc, te.2 = Ev.settle i oc → i < c.total := by
  intro te hm i oc he
  have := List.all_eq_true.mp h _ hm
  rcases te with ⟨t, e⟩
  subst he
  simpa [evOK] using this

/-! ### Initial state facts -/

theorem initState_of_pos {c : Config} (h : 1 ≤ c.total) :
    initState c =
      { loadedCount := 0, totalCount := c.total, isComplete := false,
        progressLog := [], hookLog := [], gracePending := [], graceDone := 0 } := by
  rw [initState, if_neg (by omega)]

theorem initState_of_zero {c : Config} (h : c.total = 0) :
    initState c =
      { loadedCount := 0, totalCount := c.total, isComplete := true,
        progressLog := [], hookLog := [(0, Src.startImmediate)], gracePending := [],
        graceDone := 0 } := by
  rw [initState, if_pos h]
  rfl

theorem initState_hookLen (c : Config) :
    (initState c).hookLog.length = (if (initState c).isComplete then 1 else 0) := by
  by_cases h : c.total = 0
  · rw [initState_of_zero h]
    rfl
  · rw [initState_of_pos (by omega)]
    rfl

/-! ### The Ready Hook guard: at most one invocation, ever -/

theorem hookLen_step {c : Config} {s : LMState} (t : Nat) (e : Ev)
    (h : s.hookLog.length = (if s.isComplete then 1 else 0)) :
    (step c s t e).hookLog.length = (if (step c s t e).isComplete then 1 else 0) := by
  have hcl : ∀ (src : Src) (s2 : LMState),
      s2.hookLog.length = (if s2.isComplete then 1 else 0) →
      (completeLoading src t s2).hookLog.length =
        (if (completeLoading src t s2).isComplete then 1 else 0) := by
    intro src s2 h2
    rw [completeLoading_isComplete, if_pos rfl]
    unfold completeLoading
    split
    next hc => rw [h2, if_pos hc]
    next hc =>
        rw [List.length_append, h2, if_neg hc]
        rfl
  cases e with
  | settle i oc =>
      rw [step_settle_hookLog, step_settle_isComplete]
      exact h
  | grace => exact hcl Src.graceTimer { s with graceDone := s.graceDone + 1 } h
  | fb =>
      rw [step, fallbackFire_eq]
      exact hcl Src.fallbackTimer s h
theorem hookLen_runFrom {c : Config} {s : LMState} (tr : List (Nat × Ev))
    (h : s.hookLog.length = (if s.isComplete then 1 else 0)) :
    (runFrom c s tr).hookLog.length =
      (if (runFrom c s tr).isComplete then 1 else 0) := by
  induction tr generalizing s with
  | nil => exact h
  | cons te rest ih =>
      rcases te with ⟨t, e⟩
      exact ih (hookLen_step t e h)

/-- A fallback-timer event forces completion of the run. -/
theorem isComplete_of_fb_mem {c : Config} {s : LMState} {tr : List (Nat × Ev)}
    {t : Nat} (hm : (t, Ev.fb) ∈ tr) : (runFrom c s tr).isComplete = true := by
  induction tr generalizing s with
  | nil => simp at hm
  | cons te rest ih =>
      rcases List.mem_cons.mp hm with h | h
      · subst h
        rw [runFrom]
        have hc : (step c s t Ev.fb).isComplete = true := by
          rw [step, fallbackFire_eq, completeLoading_isComplete]
        exact (complete_stable hc).1
      · rcases te with ⟨t2, e2⟩
        exact ih h

/-! ### Phase lemmas for the timing claims -/

theorem getElem?_singleton {u t : Nat} {d : Nat} (h : ([u] : List Nat)[d]? = some t) :
    t = u := by
  cases d with
  | zero => simpa using h.symm
  | succ d => simp at h

/-- While fewer settlements than `totalCount` have been dispatched and no
fallback event occurs, the sequencer stays incomplete: no grace timer is ever
scheduled, so no ready transition can fire. -/
theorem pending_phase {c : Config} {tr : List (Nat × Ev)} {s : LMState}
    (h1 : s.isComplete = false) (h2 : s.gracePending = [])
    (h3 : s.loadedCount + settleCount tr < s.totalCount)
    (h4 : ∀ te ∈ tr, te.2 ≠ Ev.fb)
    (h5 : graceOKb c s tr = true) :
    (runFrom c s tr).isComplete = false ∧ (runFrom c s tr).gracePending = [] ∧
      (runFrom c s tr).hookLog = s.hookLog := by
  induction tr generalizing s with
  | nil => exact ⟨h1, h2, rfl⟩
  | cons te rest ih =>
      rcases te with ⟨t, e⟩
      rcases graceOKb_cons h5 with ⟨hg, h5r⟩
      have h4r : ∀ te ∈ rest, te.2 ≠ Ev.fb := fun te hm => h4 te (List.mem_cons_of_mem _ hm)
      cases e with
      | settle i oc =>
          rw [runFrom]
          cases hr : c.resources[i]? with
          | none =>
              rw [step_settle_none hr] at h5r ⊢
              exact ih h1 h2 (by rw [settleCount_cons_settle] at h3; omega) h4r h5r
          | some r =>
              rw [step_settle_some hr] at h5r ⊢
              have hlt : ¬ s.totalCount ≤ s.loadedCount + 1 := by
                rw [settleCount_cons_settle] at h3
                omega
              have hpend : (onResourceLoaded t s).gracePending = [] := by
                rw [onResourceLoaded_gracePending, if_neg hlt, h2]
              have hcomp : (onResourceLoaded t s).isComplete = false := by
                rw [onResourceLoaded_isComplete, h1]
              have hcount : (onResourceLoaded t s).loadedCount + settleCount rest <
                  (onResourceLoaded t s).totalCount := by
                rw [onResourceLoaded_loadedCount, onResourceLoaded_totalCount]
                rw [settleCount_cons_settle] at h3
                omega
              rcases ih hcomp hpend hcount h4r h5r with ⟨hA, hB, hC⟩
              exact ⟨hA, hB, hC.trans (onResourceLoaded_hookLog t s)⟩
      | grace =>
          exfalso
          have := hg rfl
          rw [h2] at this
          simp at this
      | fb => exact absurd rfl (h4 (t, Ev.fb) (List.mem_cons_self _ _))

/-- With one pending grace timer and no further settlements, any grace event of
the trace fires that timer: its time is the scheduled time. -/
theorem grace_forced {c : Config} {tr : List (Nat × Ev)} {s : LMState} {u tg : Nat}
    (h5 : graceOKb c s tr = true) (h0 : settleCount tr = 0)
    (h2 : s.gracePending = [u]) (hm : (tg, Ev.grace) ∈ tr) : tg = u := by
  induction tr generalizing s with
  | nil => simp at hm
  | cons te rest ih =>
      rcases te with ⟨t, e⟩
      rcases graceOKb_cons h5 with ⟨hg, h5r⟩
      cases e with
      | settle i oc => rw [settleCount_cons_settle] at h0; omega
      | grace =>
          rcases List.mem_cons.mp hm with h | h
          · have ht : s.gracePending[s.graceDone]? = some t := hg rfl
            rw [h2] at ht
            have := getElem?_singleton ht
            cases h
            omega
          · refine ih h5r (by simpa using h0) ?_ h
            simp [step, graceFire, h2]
      | fb =>
          rcases List.mem_cons.mp hm with h | h
          · exact absurd (congrArg Prod.snd h) (by simp)
          · refine ih h5r (by simpa using h0) ?_ h
            simp [step, fallbackFire_eq, h2]

/-- Phase B: all resources have settled and the grace timer is pending at
time `u < 5000`; the ready transition fires at `u` via the grace path. -/
theorem phaseB {c : Config} {tr : List (Nat × Ev)} {s : LMState} {u : Nat}
    (h1 : s.isComplete = false) (h2 : s.gracePending = [u]) (h3 : s.hookLog = [])
    (h0 : settleCount tr = 0) (hu : u < 5000)
    (hsort : List.Pairwise (fun a b => a ≤ b) (tr.map Prod.fst))
    (hfb : ∀ te ∈ tr, te.2 = Ev.fb → te.1 = 5000)
    (h5 : graceOKb c s tr = true)
    (hex : ∃ tg, (tg, Ev.grace) ∈ tr) :
    (runFrom c s tr).hookLog = [(u, Src.graceTimer)] := by
  induction tr generalizing s with
  | nil => simp at hex
  | cons te rest ih =>
      rcases te with ⟨t, e⟩
      rcases graceOKb_cons h5 with ⟨hg, h5r⟩
      cases e with
      | settle i oc => rw [settleCount_cons_settle] at h0; omega
      | grace =>
          have ht : s.gracePending[s.graceDone]? = some t := hg rfl
          rw [h2] at ht
          have htu : t = u := getElem?_singleton ht
          subst htu
          rw [runFrom]
          have hc1 : ({ s with graceDone := s.graceDone + 1 } : LMState).isComplete = false := h1
          have hHook : (step c s t Ev.grace).hookLog = [(t, Src.graceTimer)] := by
            rw [step, graceFire, completeLoading_hookLog_of_not hc1]
            show s.hookLog ++ [(t, Src.graceTimer)] = [(t, Src.graceTimer)]
            rw [h3]
            rfl
          have hC : (step c s t Ev.grace).isComplete = true := by
            rw [step, graceFire, completeLoading_isComplete]
          rw [(complete_stable hC).2, hHook]
      | fb =>
          exfalso
          rcases hex with ⟨tg, hmem⟩
          rcases List.mem_cons.mp hmem with h | h
          · exact absurd (congrArg Prod.snd h) (by simp)
          · have ht5 : t = 5000 := hfb (t, Ev.fb) (List.mem_cons_self _ _) rfl
            have hGP : (step c s t Ev.fb).gracePending = [u] := by
              simp [step, fallbackFire_eq, h2]
            have htg : tg = u := grace_forced h5r (by simpa using h0) hGP h
            have hle : t ≤ tg := by
              rw [List.map_cons] at hsort
              exact (List.pairwise_cons.mp hsort).1 tg
                (List.mem_map_of_mem Prod.fst h)
            omega

theorem settleTimes_length (tr : List (Nat × Ev)) :
    (settleTimes tr).length = settleCount tr := by
  induction tr with
  | nil => rfl
  | cons te rest ih =>
      rcases te with ⟨t, e⟩
      cases e <;> simp [ih]

theorem mem_settleTimes {tr : List (Nat × Ev)} {u j : Nat} {oc : Outcome}
    (hm : (u, Ev.settle j oc) ∈ tr) : u ∈ settleTimes tr :=
  List.mem_filterMap.mpr ⟨(u, Ev.settle j oc), hm, rfl⟩

theorem le_foldr_max {l : List Nat} {x : Nat} (hm : x ∈ l) : x ≤ l.foldr max 0 := by
  induction l with
  | nil => simp at hm
  | cons a rest ih =>
      rcases List.mem_cons.mp hm with h | h
      · subst h
        exact Nat.le_max_left _ _
      · exact le_trans (ih h) (Nat.le_max_right _ _)

/-- Phase A: `isComplete` is false, no grace timer pending, and the remaining
trace carries all outstanding settlements, all timed so that settlement plus
the grace delay precedes the fallback deadline.  The Ready Hook then fires at
(last settlement time) + 500 via the grace path. -/
theorem phaseA {c : Config} {tr : List (Nat × Ev)} {s : LMState}
    (h1 : s.isComplete = false) (h2 : s.gracePending = []) (h3 : s.hookLog = [])
    (h5c : s.loadedCount + settleCount tr = s.totalCount)
    (h6 : 1 ≤ settleCount tr)
    (hb : ∀ te ∈ tr, ∀ i oc, te.2 = Ev.settle i oc → i < c.total)
    (htm : ∀ te ∈ tr, ∀ i oc, te.2 = Ev.settle i oc → te.1 + 500 < 5000)
    (hfb : ∀ te ∈ tr, te.2 = Ev.fb → te.1 = 5000)
    (hsort : List.Pairwise (fun a b => a ≤ b) (tr.map Prod.fst))
    (h5 : graceOKb c s tr = true)
    (hex : ∃ tg, (tg, Ev.grace) ∈ tr) :
    (runFrom c s tr).hookLog = [(maxSettleTime tr + 500, Src.graceTimer)] := by
  induction tr generalizing s with
  | nil => simp [settleCount, settleIdxs] at h6
  | cons te rest ih =>
      rcases te with ⟨t, e⟩
      rcases graceOKb_cons h5 with ⟨hg, h5r⟩
      have hbr : ∀ te ∈ rest, ∀ i oc, te.2 = Ev.settle i oc → i < c.total :=
        fun te hm => hb te (List.mem_cons_of_mem _ hm)
      have htmr : ∀ te ∈ rest, ∀ i oc, te.2 = Ev.settle i oc → te.1 + 500 < 5000 :=
        fun te hm => htm te (List.mem_cons_of_mem _ hm)
      have hfbr : ∀ te ∈ rest, te.2 = Ev.fb → te.1 = 5000 :=
        fun te hm => hfb te (List.mem_cons_of_mem _ hm)
      have hsortr : List.Pairwise (fun a b => a ≤ b) (rest.map Prod.fst) := by
        rw [List.map_cons] at hsort
        exact (List.pairwise_cons.mp hsort).2
      cases e with
      | settle i oc =>
          have hi : i < c.total := hb _ (List.mem_cons_self _ _) i oc rfl
          have hstep : step c s t (Ev.settle i oc) = onResourceLoaded t s :=
            step_settle hi
          rw [runFrom, hstep]
          rw [hstep] at h5r
          have hexr : ∃ tg, (tg, Ev.grace) ∈ rest := by
            rcases hex with ⟨tg, hm⟩
            rcases List.mem_cons.mp hm with h | h
            · exact absurd (congrArg Prod.snd h) (by simp)
            · exact ⟨tg, h⟩
          by_cases hc : settleCount rest = 0
          · have hEq : s.loadedCount + 1 = s.totalCount := by
              rw [settleCount_cons_settle, hc] at h5c
              omega
            have hpend : (onResourceLoaded t s).gracePending = [t + 500] := by
              rw [onResourceLoaded_gracePending, if_pos (by omega), h2]
              rfl
            have hcomp : (onResourceLoaded t s).isComplete = false := by
              rw [onResourceLoaded_isComplete, h1]
            have hhook : (onResourceLoaded t s).hookLog = [] := by
              rw [onResourceLoaded_hookLog, h3]
            have hu : t + 500 < 5000 := htm _ (List.mem_cons_self _ _) i oc rfl
            have hres := phaseB hcomp hpend hhook hc hu hsortr hfbr h5r hexr
            have hmax : maxSettleTime ((t, Ev.settle i oc) :: rest) = t := by
              have hnil : settleTimes rest = [] := by
                rw [← List.length_eq_zero, settleTimes_length]
                exact hc
              rw [maxSettleTime, settleTimes_cons_settle, hnil]
              simp
            rw [hmax]
            exact hres
          · have hc1 : 1 ≤ settleCount rest := by omega
            have h5cr : (onResourceLoaded t s).loadedCount + settleCount rest =
                (onResourceLoaded t s).totalCount := by
              rw [onResourceLoaded_loadedCount, onResourceLoaded_totalCount]
              rw [settleCount_cons_settle] at h5c
              omega
            have hpend : (onResourceLoaded t s).gracePending = [] := by
              rw [onResourceLoaded_gracePending, if_neg (by
                rw [settleCount_cons_settle] at h5c
                omega), h2]
            have hcomp : (onResourceLoaded t s).isComplete = false := by
              rw [onResourceLoaded_isComplete, h1]
            have hhook : (onResourceLoaded t s).hookLog = [] := by
              rw [onResourceLoaded_hookLog, h3]
            have hres := ih hcomp hpend hhook h5cr hc1 hbr htmr hfbr hsortr h5r hexr
            have hmax : maxSettleTime ((t, Ev.settle i oc) :: rest) =
                maxSettleTime rest := by
              rcases exists_settle_of_count_pos hc1 with ⟨u, j, oc2, hm⟩
              have hub : u ≤ maxSettleTime rest := le_foldr_max (mem_settleTimes hm)
              have htu : t ≤ u := by
                rw [List.map_cons] at hsort
                exact (List.pairwise_cons.mp hsort).1 u (List.mem_map_of_mem Prod.fst hm)
              rw [maxSettleTime, settleTimes_cons_settle]
              show max t ((settleTimes rest).foldr max 0) = maxSettleTime rest
              rw [maxSettleTime] at hub ⊢
              omega
            rw [hmax]
            exact hres
      | grace =>
          exfalso
          have := hg rfl
          rw [h2] at this
          simp at this
      | fb =>
          exfalso
          have ht5 : t = 5000 := hfb _ (List.mem_cons_self _ _) rfl
          have hc1 : 1 ≤ settleCount rest := by
            rw [settleCount_cons_fb] at h6
            exact h6
          rcases exists_settle_of_count_pos hc1 with ⟨u, j, oc2, hm⟩
          have hu : u + 500 < 5000 := htmr _ hm j oc2 rfl
          have htu : t ≤ u := by
            rw [List.map_cons] at hsort
            exact (List.pairwise_cons.mp hsort).1 u (List.mem_map_of_mem Prod.fst hm)
          omega

/-! ### The reported progress sequence -/

/-- The percentages `onResourceLoaded` hands to the Progress Sink when `b`
settlements arrive on top of `a` previous ones, against a fixed `total`. -/
def progressSeq (total a b : Nat) : List ℚ :=
  (List.range b).map fun k => progressOf (a + k + 1) total

@[simp]
theorem progressSeq_zero (total a : Nat) : progressSeq total a 0 = [] := rfl

theorem progressSeq_succ (total a b : Nat) :
    progressSeq total a (b + 1) =
      progressOf (a + 1) total :: progressSeq total (a + 1) b := by
  unfold progressSeq
  rw [List.range_succ_eq_map, List.map_cons, List.map_map]
  congr 1
  apply List.map_congr_left
  intro k hk
  simp only [Function.comp_apply]
  congr 1
  omega

/-- The reported percentages over a run, against the initial state. -/
theorem progressLog_runFrom {c : Config} {tr : List (Nat × Ev)}
    (hb : ∀ te ∈ tr, ∀ i oc, te.2 = Ev.settle i oc → i < c.total) (s : LMState) :
    (runFrom c s tr).progressLog =
      s.progressLog ++ progressSeq s.totalCount s.loadedCount (settleCount tr) := by
  induction tr generalizing s with
  | nil => simp [runFrom]
  | cons te rest ih =>
      rcases te with ⟨t, e⟩
      have hbr : ∀ te ∈ rest, ∀ i oc, te.2 = Ev.settle i oc → i < c.total :=
        fun te hm => hb te (List.mem_cons_of_mem _ hm)
      cases e with
      | settle i oc =>
          have hi : i < c.total := hb _ (List.mem_cons_self _ _) i oc rfl
          rw [runFrom, step_settle hi, ih hbr, onResourceLoaded_progressLog,
            onResourceLoaded_totalCount, onResourceLoaded_loadedCount,
            settleCount_cons_settle, progressSeq_succ, List.append_assoc]
          rfl
      | grace =>
          rw [runFrom, ih hbr, settleCount_cons_grace]
          simp [step, graceFire]
      | fb =>
          rw [runFrom, ih hbr, settleCount_cons_fb]
          simp [step, fallbackFire_eq]

theorem progressOf_mono {k m n : Nat} (h : k ≤ m) : progressOf k n ≤ progressOf m n := by
  unfold progressOf
  cases n with
  | zero => simp
  | succ n2 =>
      have hpos : (0 : ℚ) < ((n2 + 1 : Nat) : ℚ) := by positivity
      have hkm : ((k : ℚ)) ≤ ((m : ℚ)) := by exact_mod_cast h
      have := (div_le_div_iff_of_pos_right (c := ((n2 + 1 : Nat) : ℚ)) hpos).mpr hkm
      nlinarith

theorem progressOf_le_100 {k n : Nat} (h : k ≤ n) : progressOf k n ≤ 100 := by
  unfold progressOf
  cases n with
  | zero =>
      have hk : k = 0 := by omega
      subst hk
      norm_num
  | succ n2 =>
      have hpos : (0 : ℚ) < ((n2 + 1 : Nat) : ℚ) := by positivity
      have hdiv : ((k : ℚ)) / ((n2 + 1 : Nat) : ℚ) ≤ 1 := by
        rw [div_le_one hpos]
        exact_mod_cast h
      nlinarith

theorem chain_progressSeq (total : Nat) :
    ∀ (b a : Nat), List.Chain' (fun p q : ℚ => p ≤ q) (progressSeq total a b) := by
  intro b
  induction b with
  | zero => intro a; simp
  | succ b2 ih =>
      intro a
      rw [progressSeq_succ]
      cases b2 with
      | zero => simp
      | succ b3 =>
          rw [progressSeq_succ]
          refine List.Chain'.cons ?_ ?_
          · exact progressOf_mono (by omega)
          · rw [← progressSeq_succ]
            exact ih (a + 1)

theorem mem_progressSeq {total a b : Nat} {p : ℚ} (hm : p ∈ progressSeq total a b) :
    ∃ k, k < b ∧ p = progressOf (a + k + 1) total := by
  unfold progressSeq at hm
  rcases List.mem_map.mp hm with ⟨k, hk, hp⟩
  exact ⟨k, List.mem_range.mp hk, hp.symm⟩

theorem progressSeq_min_collapse {total b : Nat} (h : b ≤ total) :
    progressSeq total 0 b =
      (List.range b).map fun k => min 100 (progressOf (k + 1) total) := by
  unfold progressSeq
  apply List.map_congr_left
  intro k hk
  have hk2 : k + 1 ≤ total := by
    have := List.mem_range.mp hk
    omega
  rw [min_eq_right (progressOf_le_100 hk2)]
  congr 1
  omega

/-! ### Further initial-state components and trace closure -/

theorem initState_loadedCount (c : Config) : (initState c).loadedCount = 0 := by
  by_cases h : c.total = 0
  · rw [initState_of_zero h]
  · rw [initState_of_pos (by omega)]

theorem initState_totalCount (c : Config) : (initState c).totalCount = c.total := by
  by_cases h : c.total = 0
  · rw [initState_of_zero h]
  · rw [initState_of_pos (by omega)]

theorem initState_progressLog (c : Config) : (initState c).progressLog = [] := by
  by_cases h : c.total = 0
  · rw [initState_of_zero h]
  · rw [initState_of_pos (by omega)]

theorem initState_gracePending (c : Config) : (initState c).gracePending = [] := by
  by_cases h : c.total = 0
  · rw [initState_of_zero h]
  · rw [initState_of_pos (by omega)]

/-- Bridge: the `evOK` form of the fallback-timer facts. -/
theorem fb_time_of_all {c : Config} {tr : List (Nat × Ev)}
    (h : tr.all (evOK c) = true) : ∀ te ∈ tr, te.2 = Ev.fb → te.1 = 5000 := by
  intro te hm he
  have := List.all_eq_true.mp h _ hm
  rcases te with ⟨t, e⟩
  simp only at he
  subst he
  rw [evOK] at this
  simp only [decide_eq_true_eq] at this
  exact this.1

/-- A prefix of a well-formed trace is well-formed: all scheduling constraints
restrict to prefixes. -/
theorem WF.append_left {c : Config} {l₁ l₂ : List (Nat × Ev)}
    (h : WF c (l₁ ++ l₂)) : WF c l₁ := by
  refine ⟨?_, ?_, ?_, ?_, ?_⟩
  · have := h.sorted
    rw [List.map_append, List.pairwise_append] at this
    exact this.1
  · have := h.evsOK
    rw [List.all_append, Bool.and_eq_true] at this
    exact this.1
  · have := h.settleOnce
    rw [settleIdxs_append] at this
    exact List.Nodup.of_append_left this
  · have := h.fbOnce
    rw [List.countP_append] at this
    omega
  · have := h.graceOK
    rw [graceOKb_append, Bool.and_eq_true] at this
    exact this.1

/-! ### Claim theorems -/

/-- C1: over every well-formed interleaving of settlement callbacks, the grace
timer and the fallback timer (with the fallback timer firing whenever it was
armed, i.e. `total >= 1`), the Ready Hook is invoked exactly once; and
`completeLoading` is idempotent: a further call after the run finds
`isComplete` true and returns the state unchanged, with no second Ready Hook
invocation. -/
theorem claim_c1 (c : Config) (tr : List (Nat × Ev)) (src : Src) (t : Nat)
    (_hwf : WF c tr) (hfb : 1 ≤ c.total → Ev.fb ∈ tr.map Prod.snd) :
    (run c tr).hookLog.length = 1 ∧ completeLoading src t (run c tr) = run c tr := by
  have hcomp : (run c tr).isComplete = true := by
    by_cases h : c.total = 0
    · have h0 : (initState c).isComplete = true := by rw [initState_of_zero h]
      exact (complete_stable h0).1
    · rcases List.mem_map.mp (hfb (by omega)) with ⟨te, hm, hsnd⟩
      rcases te with ⟨t2, e2⟩
      simp only at hsnd
      subst hsnd
      exact isComplete_of_fb_mem hm
  have hlen := hookLen_runFrom (c := c) (s := initState c) tr (initState_hookLen c)
  rw [show runFrom c (initState c) tr = run c tr from rfl, hcomp] at hlen
  simp only [if_pos rfl] at hlen
  exact ⟨hlen, completeLoading_of_complete hcomp src t⟩

/-- C2: when fewer than `total` resources have settled before the fallback
timeout fires at 5000, the ready transition is forced exactly at 5000 via the
fallback path; settlement callbacks dispatched afterwards still run
`onResourceLoaded` (the count keeps advancing) but never fire the Ready Hook
again. -/
theorem claim_c2 (c : Config) (pre post : List (Nat × Ev))
    (hwf : WF c (pre ++ (5000, Ev.fb) :: post))
    (hlt : settleCount pre < c.total) :
    (run c (pre ++ (5000, Ev.fb) :: post)).hookLog = [(5000, Src.fallbackTimer)] ∧
      (run c (pre ++ (5000, Ev.fb) :: post)).loadedCount =
        settleCount (pre ++ (5000, Ev.fb) :: post) := by
  have hmemfb : ((5000 : Nat), Ev.fb) ∈ pre ++ (5000, Ev.fb) :: post :=
    List.mem_append_right _ (List.mem_cons_self _ _)
  have hpos : 1 ≤ c.total := (hwf.fb_time hmemfb).2
  have hinit := initState_of_pos hpos
  have hnofb : ∀ te ∈ pre, te.2 ≠ Ev.fb := by
    have hcnt := hwf.fbOnce
    rw [List.countP_append] at hcnt
    have hone : 1 ≤ List.countP (fun te => te.2 == Ev.fb) ((5000, Ev.fb) :: post) := by
      rw [List.countP_cons]
      simp
    intro te hm he
    have hppos : 0 < List.countP (fun te => te.2 == Ev.fb) pre :=
      List.countP_pos_iff.mpr ⟨te, hm, by simp [he]⟩
    omega
  have hgOK := hwf.graceOK
  rw [graceOKb_append, Bool.and_eq_true] at hgOK
  have hcount : (initState c).loadedCount + settleCount pre < (initState c).totalCount := by
    rw [initState_loadedCount, initState_totalCount]
    omega
  rcases pending_phase (by rw [hinit]) (by rw [hinit]) hcount hnofb hgOK.1 with
    ⟨hic, hgp, hhl⟩
  constructor
  · rw [run, runFrom_append, runFrom]
    have hstepc : (step c (runFrom c (initState c) pre) 5000 Ev.fb).isComplete = true := by
      rw [step, fallbackFire_eq, completeLoading_isComplete]
    rw [(complete_stable hstepc).2, step, fallbackFire_eq,
      completeLoading_hookLog_of_not hic, hhl, hinit]
    rfl
  · rw [run, loadedCount_runFrom (settle_bound_of_all hwf.evsOK), initState_loadedCount]
    omega

/-- C3 (amended): if all `n >= 1` resources settle and every settlement time
`T` satisfies `T + 500 < 5000` (settlement plus the grace delay precedes the
fallback deadline), the Ready Hook fires at (last settlement time) + 500 via
the grace-delay path, not the fallback path. -/
theorem claim_c3 (c : Config) (tr : List (Nat × Ev)) (tg : Nat)
    (hwf : WF c tr) (hn : settleCount tr = c.total) (hpos : 1 ≤ c.total)
    (htm : ∀ u ∈ settleTimes tr, u + 500 < 5000)
    (hg : (tg, Ev.grace) ∈ tr) :
    (run c tr).hookLog = [(maxSettleTime tr + 500, Src.graceTimer)] := by
  have hinit := initState_of_pos hpos
  have htm2 : ∀ te ∈ tr, ∀ i oc, te.2 = Ev.settle i oc → te.1 + 500 < 5000 := by
    intro te hm i oc he
    apply htm
    rcases te with ⟨u, e⟩
    simp only at he
    subst he
    exact mem_settleTimes hm
  rw [run]
  exact phaseA (by rw [hinit]) (by rw [hinit]) (by rw [hinit])
    (by rw [initState_loadedCount, initState_totalCount]; omega) (by omega)
    (settle_bound_of_all hwf.evsOK) htm2 (fb_time_of_all hwf.evsOK) hwf.sorted
    hwf.graceOK ⟨tg, hg⟩

/-- The discovery input of the counterexample to C3 as stated: one image. -/
def cX : Config := ⟨["hero.png"], [], false⟩

/-- The counterexample schedule: the single resource settles at 4800, before
the 5000 fallback deadline, so the grace timer is scheduled for 5300; the
fallback timer wins and the scheduled grace timer fires harmlessly later. -/
def trX : List (Nat × Ev) :=
  [(4800, Ev.settle 0 Outcome.success), (5000, Ev.fb), (5300, Ev.grace)]

/-- C3 counterexample: the claim as stated quantifies over every settlement
time strictly before the 5000 fallback deadline.  With the single settlement
at 4800 (< 5000) the run is well-formed, all resources settle before the
deadline, yet the Ready Hook fires at 5000 via the fallback path, not at
4800 + 500 via the grace path. -/
theorem claim_c3_counterexample :
    WF cX trX ∧ settleTimes trX = [4800] ∧ settleCount trX = cX.total ∧
      (run cX trX).hookLog = [(5000, Src.fallbackTimer)] ∧
      (run cX trX).hookLog ≠ [(4800 + 500, Src.graceTimer)] := by
  refine ⟨⟨?_, ?_, ?_, ?_, ?_⟩, ?_, ?_, ?_, ?_⟩ <;> decide

/-- C4: when discovery yields zero resources, `startLoading` fires the ready
transition immediately at time 0: no listener is ever attached and no timer is
armed (the only well-formed trace is empty), and the Ready Hook fires exactly
once with no timer wait. -/
theorem claim_c4 (c : Config) (tr : List (Nat × Ev)) (h : c.total = 0)
    (hwf : WF c tr) :
    tr = [] ∧ run c tr = initState c ∧
      (initState c).hookLog = [(0, Src.startImmediate)] ∧
      (initState c).isComplete = true := by
  have htr : tr = [] := by
    cases tr with
    | nil => rfl
    | cons te rest =>
        exfalso
        rcases te with ⟨t, e⟩
        cases e with
        | settle i oc =>
            have := hwf.settle_lt (List.mem_cons_self _ _)
            omega
        | grace =>
            rcases graceOKb_cons hwf.graceOK with ⟨hg, _⟩
            have := hg rfl
            rw [initState_gracePending] at this
            simp at this
        | fb =>
            have := (hwf.fb_time (List.mem_cons_self _ _)).2
            omega
  subst htr
  exact ⟨rfl, rfl, by rw [initState_of_zero h], by rw [initState_of_zero h]⟩

/-- C7: in every reachable state (any well-formed prefix `pre` of an
execution), `loadedCount` equals the number of settlements dispatched so far
(it starts at 0 and advances by exactly 1 per settlement), `0 <= loadedCount
<= total` holds, `totalCount` stays fixed at the discovery count, and
`isComplete` never transitions back (Bool order: once true, true in every
extension), with at most one ready transition ever. -/
theorem claim_c7 (c : Config) (pre post : List (Nat × Ev))
    (hwf : WF c (pre ++ post)) :
    (run c pre).totalCount = c.total ∧
      (run c pre).loadedCount = settleCount pre ∧
      (run c pre).loadedCount ≤ c.total ∧
      (run c pre).isComplete ≤ (run c (pre ++ post)).isComplete ∧
      (run c (pre ++ post)).hookLog.length ≤ 1 := by
  have hpre : WF c pre := hwf.append_left
  have h2 : (run c pre).loadedCount = settleCount pre := by
    rw [run, loadedCount_runFrom (settle_bound_of_all hpre.evsOK), initState_loadedCount]
    omega
  refine ⟨?_, h2, ?_, ?_, ?_⟩
  · rw [run, totalCount_runFrom, initState_totalCount]
  · rw [h2]
    exact settleCount_le_total hpre
  · rw [run, run, runFrom_append]
    cases hc : (runFrom c (initState c) pre).isComplete with
    | false => exact Bool.false_le _
    | true =>
        rw [(complete_stable hc).1]
  · have hlen := hookLen_runFrom (c := c) (s := initState c) (pre ++ post)
      (initState_hookLen c)
    rw [run, hlen]
    split <;> omega

/-- C9: the division `loadedCount / totalCount` in `onResourceLoaded` never
divides by zero: a settlement callback can only be dispatched when
`totalCount >= 1` (no listener is attached when `total == 0`), and the fonts
settlement callback is only registered together with a pushed fonts
descriptor, which already makes `total >= 1`. -/
theorem claim_c9 (c : Config) (tr : List (Nat × Ev)) (t i : Nat) (oc : Outcome)
    (hwf : WF c tr) (h : (t, Ev.settle i oc) ∈ tr ∨ c.hasFonts = true) :
    1 ≤ c.total := by
  rcases h with h | h
  · have := hwf.settle_lt h
    omega
  · rw [Config.total, Config.resources, collectResources, if_pos h]
    simp
    omega

/-- C5: over any execution, the sequence of percentages passed to the Progress
Sink is monotonically non-decreasing from call to call, and no reported value
exceeds 100. -/
theorem claim_c5 (c : Config) (tr : List (Nat × Ev)) (p : ℚ)
    (hwf : WF c tr) (hp : p ∈ (run c tr).progressLog) :
    List.Chain' (fun a b : ℚ => a ≤ b) (run c tr).progressLog ∧ p ≤ 100 := by
  have hlog : (run c tr).progressLog = progressSeq c.total 0 (settleCount tr) := by
    rw [run, progressLog_runFrom (settle_bound_of_all hwf.evsOK), initState_progressLog,
      initState_totalCount, initState_loadedCount, List.nil_append]
  constructor
  · rw [hlog]
    exact chain_progressSeq c.total (settleCount tr) 0
  · rw [hlog] at hp
    rcases mem_progressSeq hp with ⟨k, hk, hpe⟩
    rw [hpe]
    have := settleCount_le_total hwf
    exact progressOf_le_100 (by omega)

/-- C6: every percentage the sequencer reports equals
`min(100, loadedCount/total*100)`: the k-th report (0-based) is made right
after `loadedCount` advanced to `k+1`, and its value is exactly
`min 100 (progressOf (k+1) total)` (the `min` never truncates because
`loadedCount <= total`).  When `total == 0`, nothing is ever reported: the
state is immediately complete instead. -/
theorem claim_c6 (c : Config) (tr : List (Nat × Ev)) (hwf : WF c tr) :
    (run c tr).progressLog =
      (List.range (settleCount tr)).map fun k => min 100 (progressOf (k + 1) c.total) := by
  rw [run, progressLog_runFrom (settle_bound_of_all hwf.evsOK), initState_progressLog,
    initState_totalCount, initState_loadedCount, List.nil_append]
  exact progressSeq_min_collapse (settleCount_le_total hwf)

/-- The discovery input of the C8 scenario: a single image resource. -/
def cE : Config := ⟨["broken.png"], [], false⟩

/-- C8 scenario, error path: the single image fails at 1000; the grace timer
fires at 1500 and the fallback timer at 5000. -/
def trFailC8 : List (Nat × Ev) :=
  [(1000, Ev.settle 0 Outcome.failure), (1500, Ev.grace), (5000, Ev.fb)]

/-- C8 scenario, success path: same schedule, the image loads instead. -/
def trSuccC8 : List (Nat × Ev) :=
  [(1000, Ev.settle 0 Outcome.success), (1500, Ev.grace), (5000, Ev.fb)]

/-- C8: resource load failure is never propagated and never retried.  For an
image both listeners are the same settlement notification, so either firing
advances the count by 1; a stylesheet already parsed at attach time settles
immediately (no listeners), otherwise both its listeners are the same
settlement notification; and for `n = 1` the error path is state-for-state
identical to the success path: `loadedCount` advances to 1 and the Ready Hook
fires after the grace delay at 1000 + 500. -/
theorem claim_c8 :
    (∀ url oc t s, listenerFire (Resource.image url) oc t s = onResourceLoaded t s) ∧
      (∀ b oc t s, listenerFire (Resource.stylesheet b) oc t s = onResourceLoaded t s) ∧
      (∀ t s, loadStylesheet true t s = (onResourceLoaded t s, none)) ∧
      loadImage.onLoad = loadImage.onError ∧
      WF cE trFailC8 ∧
      run cE trFailC8 = run cE trSuccC8 ∧
      (run cE trFailC8).loadedCount = 1 ∧
      (run cE trFailC8).hookLog = [(1000 + 500, Src.graceTimer)] := by
  refine ⟨?_, ?_, ?_, rfl, ⟨?_, ?_, ?_, ?_, ?_⟩, rfl, ?_, ?_⟩
  · intro url oc t s
    cases oc <;> rfl
  · intro b oc t s
    cases oc <;> rfl
  · intro t s
    rfl
  · decide
  · decide
  · decide
  · decide
  · decide
  · decide
  · decide

/-- C10: for every progress value in [0, 100], the milestone index
`floor((progress / 100) * 3)` lies within the bounds 0..3 of the four-element
message corpus, so a defined milestone message is always selected and the
fallback text is unreachable. -/
theorem claim_c10 (p : ℚ) (h0 : 0 ≤ p) (h1 : p ≤ 100) :
    0 ≤ messageIndex p ∧ messageIndex p ≤ 3 ∧ statusMessage p ∈ messages ∧
      statusMessage p ≠ "Loading..." := by
  have hlen : ((messages.length : ℚ) - 1) = 3 := by norm_num [messages]
  have hx0 : (0 : ℚ) ≤ p / 100 * ((messages.length : ℚ) - 1) := by
    rw [hlen]
    have hq : (0 : ℚ) ≤ p / 100 := div_nonneg h0 (by norm_num)
    nlinarith
  have hx3 : p / 100 * ((messages.length : ℚ) - 1) ≤ 3 := by
    rw [hlen]
    have hd : p / 100 ≤ 1 := by
      rw [div_le_one (by norm_num : (0:ℚ) < 100)]
      exact h1
    nlinarith
  have hge : 0 ≤ messageIndex p := by
    rw [messageIndex]
    exact Int.floor_nonneg.mpr hx0
  have hle3 : messageIndex p ≤ 3 := by
    rw [messageIndex]
    have hfl := Int.floor_le_floor (α := ℚ) hx3
    have h3 : Int.floor (3 : ℚ) = 3 := by norm_num
    omega
  have hml : messages.length = 4 := rfl
  have hltN : (messageIndex p).toNat < messages.length := by omega
  have hset : statusMessage p = messages.get ⟨(messageIndex p).toNat, hltN⟩ := by
    rw [statusMessage, dif_pos ⟨hge, hltN⟩]
  have hmem : statusMessage p ∈ messages := by
    rw [hset]
    exact List.get_mem _ _ _
  refine ⟨hge, hle3, hmem, ?_⟩
  intro heq
  rw [heq] at hmem
  simp [messages] at hmem

/-! ### Concrete schedules for the witnesses -/

/-- One image; it settles at 1000, the grace timer fires at 1500 and the
fallback timer at 5000. -/
def cW : Config := ⟨["logo.png"], [], false⟩

def trW : List (Nat × Ev) :=
  [(1000, Ev.settle 0 Outcome.success), (1500, Ev.grace), (5000, Ev.fb)]

/-- Two images; only the first settles before the fallback deadline. -/
def cC2 : Config := ⟨["a.png", "b.png"], [], false⟩

def preC2 : List (Nat × Ev) := [(800, Ev.settle 0 Outcome.success)]

def postC2 : List (Nat × Ev) :=
  [(6000, Ev.settle 1 Outcome.failure), (6500, Ev.grace)]

/-- Two images, both settling early; grace at 700, fallback at 5000. -/
def cV : Config := ⟨["a.png", "b.png"], [], false⟩

def trV : List (Nat × Ev) :=
  [(100, Ev.settle 0 Outcome.success), (200, Ev.settle 1 Outcome.failure),
   (700, Ev.grace), (5000, Ev.fb)]

/-- An empty page: discovery yields zero resources. -/
def cZ : Config := ⟨[], [], false⟩

/-- A fonts-only page: the synthetic fonts descriptor is the only resource. -/
def cF9 : Config := ⟨[], [], true⟩

def trF9 : List (Nat × Ev) :=
  [(10, Ev.settle 0 Outcome.success), (510, Ev.grace), (5000, Ev.fb)]

/-- Prefix and suffix split of `trW` for the invariant claim. -/
def preC7 : List (Nat × Ev) := [(1000, Ev.settle 0 Outcome.success)]

def postC7 : List (Nat × Ev) := [(1500, Ev.grace), (5000, Ev.fb)]

/-! ### Witnesses -/

theorem claim_c1_witness :
    (run cW trW).hookLog.length = 1 ∧
      completeLoading Src.startImmediate 9000 (run cW trW) = run cW trW :=
  claim_c1 cW trW Src.startImmediate 9000
    ⟨by decide, by decide, by decide, by decide, by decide⟩ (by decide)

theorem claim_c2_witness :
    (run cC2 (preC2 ++ (5000, Ev.fb) :: postC2)).hookLog =
        [(5000, Src.fallbackTimer)] ∧
      (run cC2 (preC2 ++ (5000, Ev.fb) :: postC2)).loadedCount =
        settleCount (preC2 ++ (5000, Ev.fb) :: postC2) :=
  claim_c2 cC2 preC2 postC2
    ⟨by decide, by decide, by decide, by decide, by decide⟩ (by decide)

theorem claim_c3_witness :
    (run cW trW).hookLog = [(maxSettleTime trW + 500, Src.graceTimer)] :=
  claim_c3 cW trW 1500
    ⟨by decide, by decide, by decide, by decide, by decide⟩ (by decide) (by decide)
    (by decide) (by decide)

theorem claim_c4_witness :
    ([] : List (Nat × Ev)) = [] ∧ run cZ [] = initState cZ ∧
      (initState cZ).hookLog = [(0, Src.startImmediate)] ∧
      (initState cZ).isComplete = true :=
  claim_c4 cZ [] (by decide)
    ⟨by decide, by decide, by decide, by decide, by decide⟩

theorem claim_c5_witness :
    List.Chain' (fun a b : ℚ => a ≤ b) (run cV trV).progressLog ∧
      progressOf 1 2 ≤ 100 :=
  claim_c5 cV trV (progressOf 1 2)
    ⟨by decide, by decide, by decide, by decide, by decide⟩
    (by
      rw [run, progressLog_runFrom (settle_bound_of_all (by decide)),
        initState_progressLog, initState_totalCount, initState_loadedCount,
        List.nil_append]
      show progressOf 1 2 ∈ progressSeq 2 0 2
      rw [progressSeq_succ]
      exact List.mem_cons_self _ _)

theorem claim_c6_witness :
    (run cV trV).progressLog =
      (List.range (settleCount trV)).map fun k => min 100 (progressOf (k + 1) cV.total) :=
  claim_c6 cV trV ⟨by decide, by decide, by decide, by decide, by decide⟩

theorem claim_c7_witness :
    (run cW preC7).totalCount = cW.total ∧
      (run cW preC7).loadedCount = settleCount preC7 ∧
      (run cW preC7).loadedCount ≤ cW.total ∧
      (run cW preC7).isComplete ≤ (run cW (preC7 ++ postC7)).isComplete ∧
      (run cW (preC7 ++ postC7)).hookLog.length ≤ 1 :=
  claim_c7 cW preC7 postC7
    ⟨by decide, by decide, by decide, by decide, by decide⟩

theorem claim_c9_witness : 1 ≤ cF9.total :=
  claim_c9 cF9 trF9 10 0 Outcome.success
    ⟨by decide, by decide, by decide, by decide, by decide⟩ (Or.inl (by decide))

theorem claim_c10_witness :
    0 ≤ messageIndex 50 ∧ messageIndex 50 ≤ 3 ∧ statusMessage 50 ∈ messages ∧
      statusMessage 50 ≠ "Loading..." :=
  claim_c10 50 (by norm_num) (by norm_num)

end MeisterLoad
